import Mathlib

/-!
Verification of the reconciliation-and-extraction pipeline of the
cloudbeats-backup-generator repository: a shallow embedding in Lean 4 of the
matcher (pkg/matcher), worker pool (pkg/worker), tag cache (pkg/cache),
Dropbox API retry loop (pkg/dropbox/client.go) and the taglib extraction
boundary (pkg/tags), together with theorems about the claims of the
specification.

Strings are modelled as Lean `String` (sequences of Unicode scalar values,
matching Go's rune view of its UTF-8 strings on the characters used here).
Machine integers (`int64` sizes, `UnixNano` timestamps, `time.Duration`)
are modelled as `Int`/`Nat`; no value in this development approaches 2^63,
so overflow never occurs and no explicit modulus is needed.
-/

namespace Cbg

/-! ## Character-level helpers (models of Go library functions) -/

/-- The combining acute accent U+0301, written via its code point so that no
editor normalization can silently change the file. -/
def combiningAcute : Char := Char.ofNat 0x301

/-- Precomposed lowercase e with acute accent, U+00E9. -/
def eAcute : Char := Char.ofNat 0xE9

/-- Precomposed uppercase E with acute accent, U+00C9. -/
def capEAcute : Char := Char.ofNat 0xC9

/-- Modelled from Go `strings.ToLower` (simple Unicode case mapping),
restricted to the characters appearing in this development: ASCII letters
plus U+00C9 → U+00E9.  All other characters (including U+0301) are fixed
points of Go's mapping as well. -/
def goToLowerChar (c : Char) : Char :=
  if 'A' ≤ c ∧ c ≤ 'Z' then Char.ofNat (c.toNat + 32)
  else if c = capEAcute then eAcute
  else c

/-- Go `strings.ToLower` on whole strings (rune-wise mapping). -/
def goToLower (s : String) : String := String.mk (s.data.map goToLowerChar)

/-- Modelled from golang.org/x/text/unicode/norm: the canonical composition
table restricted to the pairs used in this development
(`e`/`E` + U+0301).  Every other pair is not composed, exactly as NFC
leaves non-composable pairs alone. -/
def composeChar (base accent : Char) : Option Char :=
  if accent = combiningAcute then
    if base = 'e' then some eAcute
    else if base = 'E' then some capEAcute
    else none
  else none

/-- Modelled from golang.org/x/text/unicode/norm `NFC.String`: canonical
composition of adjacent (starter, combining) pairs, restricted to the
composition table above.  On the character sequences of this development
this agrees with full NFC. -/
def nfcChars : List Char → List Char
  | [] => []
  | c :: rest =>
    match nfcChars rest with
    | [] => [c]
    | c2 :: tail =>
      match composeChar c c2 with
      | some cc => cc :: tail
      | none => c :: c2 :: tail

/-- Go `norm.NFC.String` on Lean strings. -/
def nfcString (s : String) : String := String.mk (nfcChars s.data)

/-! ## Path helpers (models of Go path/filepath functions on slash paths) -/

/-- Helper for `filepathExt`: walk the reversed character list, collecting
characters until the last dot of the final path element (Go scans backwards
until a path separator). -/
def extRevAux (acc : List Char) : List Char → Option (List Char)
  | [] => none
  | c :: rest =>
    if c = '/' then none
    else if c = '.' then some (c :: acc)
    else extRevAux (c :: acc) rest

/-- Modelled from Go `filepath.Ext`: the suffix beginning at the final dot
in the final slash-separated element; empty if there is no dot. -/
def filepathExt (p : String) : String :=
  match extRevAux [] p.data.reverse with
  | none => ""
  | some l => String.mk l

/-- Modelled from Go `filepath.Rel`, restricted to the cleaned
slash-separated paths this program produces (the scanner always yields
paths underneath the scanned directory): target equal to base gives ".",
a target underneath base gives the remainder, anything else is treated as
the error case (Go would return a `..`-prefixed path or an error; either
way the matcher treats the file as unmatched-local, see `Match`). -/
def strStartsWith (s pre : String) : Bool := pre.data.isPrefixOf s.data

/-- Character-based drop on strings (the paths here are handled rune-wise
throughout, consistently on both sides of every comparison). -/
def strDrop (s : String) (n : Nat) : String := String.mk (s.data.drop n)

def filepathRel (base target : String) : Option String :=
  if target = base then some "."
  else if base = "/" ∧ strStartsWith target "/" then some (strDrop target 1)
  else if strStartsWith target (base ++ "/") then some (strDrop target (base.data.length + 1))
  else none

/-! ## Matcher (pkg/matcher, src/unnamed/part_004) -/

/-- Go `dropbox.Entry` (pkg/dropbox): a file or folder entry from Dropbox. -/
structure Entry where
  Tag : String
  ID : String
  Name : String
  PathLower : String
  PathDisplay : String
deriving DecidableEq

/-- Go `matcher.MatchedFile`: a local file matched to its Dropbox entry. -/
structure MatchedFile where
  LocalPath : String
  entry : Entry
deriving DecidableEq

/-- Go `matcher.ScanResult`: the result of matching local files against
Dropbox entries. -/
structure ScanResult where
  Matched : List MatchedFile
  UnmatchedLocal : List String
  UnmatchedDropbox : List Entry
deriving DecidableEq

/-- The supported audio file extensions (the `audioExtensions` map). -/
def audioExtensions : List String :=
  [".mp3", ".m4a", ".flac", ".ogg", ".opus", ".wav", ".wma", ".aac",
   ".dsf", ".aiff", ".aif", ".ape", ".wv", ".mpc"]

/-- Go `matcher.IsAudioFile`: whether the filename has a supported audio
extension (Go lowercases the extension before the map lookup). -/
def IsAudioFile (name : String) : Bool :=
  decide (goToLower (filepathExt name) ∈ audioExtensions)

/-- Go map lookup over the association-list model of `dbLookup`. -/
def assocFind (k : String) : List (String × Entry) → Option Entry
  | [] => none
  | p :: rest => if p.1 = k then some p.2 else assocFind k rest

/-- Go map insertion (overwrite on duplicate key) over the association-list
model: a later entry with the same `PathLower` replaces the earlier one. -/
def insertEntry (db : List (String × Entry)) (k : String) (e : Entry) :
    List (String × Entry) :=
  if db.any (fun p => decide (p.1 = k)) then
    db.map (fun p => if p.1 = k then (k, e) else p)
  else db ++ [(k, e)]

/-- The `dbLookup` map of `Match`: lowercase Dropbox path → entry.
Go map iteration order is unspecified; this model fixes insertion order,
which only affects the order (never the membership or length) of
`UnmatchedDropbox`. -/
def buildLookup (entries : List Entry) : List (String × Entry) :=
  entries.foldl (fun db e => insertEntry db e.PathLower e) []

/-- The lookup key `Match` computes for one local file: the path relative
to the scanned directory, NFC-normalized, lowercased, and prefixed with the
lowercased remote path (`filepath.ToSlash` is the identity on the
slash-separated paths of the target platforms). `none` models the
`filepath.Rel` error case. -/
def localKey (localDir remotePathLower localPath : String) : Option String :=
  (filepathRel localDir localPath).map
    (fun rel => remotePathLower ++ "/" ++ goToLower (nfcString rel))

/-- The per-local-file loop of `Match`: threads the `matched` key set and
returns (matched pairs, unmatched local paths, final matched key set), each
in input order exactly as the Go `append`s produce them. -/
def matchLocals (db : List (String × Entry)) (localDir remotePathLower : String) :
    List String → List String → List MatchedFile × List String × List String
  | mk, [] => ([], [], mk)
  | mk, l :: ls =>
    match localKey localDir remotePathLower l with
    | none =>
      let r := matchLocals db localDir remotePathLower mk ls
      (r.1, l :: r.2.1, r.2.2)
    | some key =>
      match assocFind key db with
      | some e =>
        let r := matchLocals db localDir remotePathLower (key :: mk) ls
        (⟨l, e⟩ :: r.1, r.2.1, r.2.2)
      | none =>
        let r := matchLocals db localDir remotePathLower mk ls
        (r.1, l :: r.2.1, r.2.2)

/-- Go `matcher.Match`: matches local files against Dropbox entries by
relative path.  `remotePath` is the Dropbox remote path prefix
(e.g. "/Music" or "" for root), `localDir` the scanned local directory. -/
def Match (localDir remotePath : String) (localFiles : List String)
    (entries : List Entry) : ScanResult :=
  let db := buildLookup entries
  let remotePathLower := goToLower remotePath
  let r := matchLocals db localDir remotePathLower [] localFiles
  let unmatchedDb :=
    (db.filter (fun p => !(decide (p.1 ∈ r.2.2)) && IsAudioFile p.2.Name)).map
      (fun p => p.2)
  ⟨r.1, r.2.1, unmatchedDb⟩

/-! ## Worker pool (pkg/worker, src/unnamed/part_003)

`worker.Process` runs `fn` on each item using up to `n` concurrent
goroutines, bounded by a semaphore channel of capacity `n`; slot `i` of the
pre-allocated `results`/`errors` arrays is written exactly by the goroutine
for item `i`.  The concurrent execution is embedded as a small-step
transition system: `issue` models the main loop admitting the next item
(guarded by the context-cancellation check and the semaphore), `complete`
models one goroutine finishing (in any order), `cancel` models the context
being cancelled.  A state is final exactly when `wg.Wait()` has returned:
no goroutine in flight and the main loop done (all items issued, or the
loop exited at the cancellation check). -/

/-- The mutable state of one `worker.Process` call.  `results` and `errors`
start as Go zero-valued arrays of length `total` (`d` is the zero value of
the result type); `attempts` counts how many times each slot was written
(always 0 or 1, proved below); `done` models the `done` atomic counter. -/
structure PoolState (R E : Type) where
  nextIdx : Nat
  inFlight : List Nat
  results : List R
  errors : List (Option E)
  attempts : List Nat
  done : Nat
  cancelled : Bool

/-- The initial state of `worker.Process` for `total` items, with `d` the
zero value of the result type. -/
def initState (total : Nat) (d : R) : PoolState R E :=
  ⟨0, [], List.replicate total d, List.replicate total none,
   List.replicate total 0, 0, false⟩

/-- One scheduler step of `worker.Process`. -/
inductive PoolStep (items : List T) (n : Nat) (fn : T → R × Option E) :
    PoolState R E → PoolState R E → Prop where
  | issue (s : PoolState R E) (hc : s.cancelled = false)
      (hi : s.nextIdx < items.length) (hsem : s.inFlight.length < n) :
      PoolStep items n fn s
        { s with nextIdx := s.nextIdx + 1, inFlight := s.nextIdx :: s.inFlight }
  | complete (s : PoolState R E) (i : Nat) (h : i < items.length)
      (hin : i ∈ s.inFlight) :
      PoolStep items n fn s
        { s with inFlight := s.inFlight.erase i,
                 results := s.results.set i (fn items[i]).1,
                 errors := s.errors.set i (fn items[i]).2,
                 attempts := s.attempts.set i (s.attempts.getD i 0 + 1),
                 done := s.done + 1 }
  | cancel (s : PoolState R E) :
      PoolStep items n fn s { s with cancelled := true }

/-- All states reachable by the scheduler. -/
def PoolReaches (items : List T) (n : Nat) (fn : T → R × Option E) :
    PoolState R E → PoolState R E → Prop :=
  Relation.ReflTransGen (PoolStep items n fn)

/-- Final state: `wg.Wait()` has returned: nothing in flight and the submission loop has
ended (all items issued, or it exited at the `ctx.Err()` check). -/
def PoolFinal (items : List T) (s : PoolState R E) : Prop :=
  s.inFlight = [] ∧ (s.nextIdx = items.length ∨ s.cancelled = true)

/-- The scheduler invariant of `worker.Process`: slot lengths are fixed;
in-flight indices are issued, distinct and unwritten; every issued index no
longer in flight has been written exactly once with `fn`'s outcome; every
index not yet issued or still in flight holds the zero value and a nil
error. -/
structure PoolInv (items : List T) (fn : T → R × Option E) (d : R)
    (s : PoolState R E) : Prop where
  hnext : s.nextIdx ≤ items.length
  hrlen : s.results.length = items.length
  helen : s.errors.length = items.length
  halen : s.attempts.length = items.length
  hflight : ∀ i ∈ s.inFlight, i < s.nextIdx
  hnodup : s.inFlight.Nodup
  hdone : ∀ i, i < s.nextIdx → i ∉ s.inFlight →
    ∃ h : i < items.length,
      s.attempts[i]? = some 1 ∧ s.results[i]? = some (fn items[i]).1
        ∧ s.errors[i]? = some (fn items[i]).2
  hpending : ∀ i, i < items.length → (s.nextIdx ≤ i ∨ i ∈ s.inFlight) →
    s.attempts[i]? = some 0 ∧ s.results[i]? = some d ∧ s.errors[i]? = some none

/-! ## Tags (pkg/tags, src/unnamed/part_007) -/

/-- Go `tags.AudioMeta`: extracted metadata from an audio file.
`Duration` is Go `time.Duration`, i.e. nanoseconds. -/
structure AudioMeta where
  Title : String
  Artist : String
  Album : String
  AlbumArtist : String
  Genre : String
  Year : Int
  TrackNumber : Int
  DiskNumber : Int
  Duration : Int
deriving DecidableEq

/-- Modelled from Go `filepath.Base` restricted to the nonempty
slash-separated paths without trailing slash this program uses: the last
path element. -/
def filepathBase (p : String) : String :=
  if p = "" then "."
  else String.mk (p.data.reverse.takeWhile (fun c => decide (c ≠ '/'))).reverse

/-- Go `tags.filenameWithoutExt`: base name with the extension suffix
trimmed (`strings.TrimSuffix(name, filepath.Ext(name))`; the extension is
by construction a suffix, so trimming drops exactly its characters). -/
def filenameWithoutExt (path : String) : String :=
  String.mk ((filepathBase path).data.take
    ((filepathBase path).data.length - (filepathExt (filepathBase path)).data.length))

/-- Go `tags.firstTag`: the first value of the tag list for `key`, if the list
is nonempty and that value is nonempty; `""` otherwise.  The Go
`map[string][]string` from taglib has unique keys; an association list with
first-match lookup models it. -/
def firstTag (tags : List (String × List String)) (key : String) : String :=
  match tags.lookup key with
  | some (v :: _) => if v = "" then "" else v
  | _ => ""

/-- Decimal digit value of a character, if it is one. -/
def digitVal (c : Char) : Option Nat :=
  if '0' ≤ c ∧ c ≤ '9' then some (c.toNat - '0'.toNat) else none

/-- Accumulating decimal parse: fails on the first non-digit. -/
def atoiDigits (acc : Nat) : List Char → Option Nat
  | [] => some acc
  | c :: rest =>
    match digitVal c with
    | some d => atoiDigits (acc * 10 + d) rest
    | none => none

/-- Modelled from Go `strconv.Atoi`: an optional sign followed by at least
one decimal digit; anything else is the error case (`none`). -/
def atoi (s : String) : Option Int :=
  match s.data with
  | [] => none
  | '-' :: rest =>
    if rest = [] then none else (atoiDigits 0 rest).map (fun n => -(n : Int))
  | '+' :: rest =>
    if rest = [] then none else (atoiDigits 0 rest).map (fun n => (n : Int))
  | l => (atoiDigits 0 l).map (fun n => (n : Int))

/-- The whitespace characters relevant to `strings.TrimSpace` here. -/
def isSpaceChar (c : Char) : Bool :=
  decide (c = ' ' ∨ c = '\t' ∨ c = '\n' ∨ c = '\r')

/-- Modelled from Go `strings.TrimSpace` (leading and trailing
whitespace removed). -/
def trimSpace (s : String) : String :=
  String.mk (((s.data.dropWhile isSpaceChar).reverse.dropWhile isSpaceChar).reverse)

/-- Go `tags.parseYear`: a 4-digit year from a string that may be a full ISO
date (Go slices the first 4 bytes; the strings involved are ASCII, so the
first 4 characters coincide). -/
def parseYear (s : String) : Int :=
  if s.data.length ≥ 4 then
    match atoi (String.mk (s.data.take 4)) with
    | some y => y
    | none => 0
  else 0

/-- Go `tags.parseSlashNumber`: parses "3/12" format, returning the number
before the slash (`strings.Cut` at the first "/", then `TrimSpace`). -/
def parseSlashNumber (s : String) (fallback : Int) : Int :=
  match atoi (trimSpace (String.mk (s.data.takeWhile (fun c => decide (c ≠ '/'))))) with
  | some n => n
  | none => fallback

/-- The outcome of the taglib boundary for one file: the native library
panicked (modelled at the call boundary, before any tag is applied — the
panics come from the cgo calls `Open`/`ReadTags`), the file could not be
opened, or it was opened yielding a tag map and audio properties
(`LengthMs`, `none` modelling nil properties). -/
inductive TaglibOutcome where
  | panicked (msg : String)
  | openFailed
  | opened (tags : List (String × List String)) (lengthMs : Option Nat)

/-- The best-effort default metadata `tags.ReadFile` initializes before
touching taglib: filename as title, "Unknown" artist/album/albumArtist,
track number absent (-1), disk number 1, zero duration. -/
def defaultMeta (path : String) : AudioMeta :=
  ⟨filenameWithoutExt path, "Unknown", "Unknown", "Unknown", "", 0, -1, 1, 0⟩

/-- Go `tags.ReadFile`: extracts audio metadata from the file at `path`, with
the taglib boundary's behaviour given by `outcome`.  A panic is recovered
by the deferred handler and converted into the returned error; an open
failure returns the defaults with a nil error; success overlays each
nonempty tag over the defaults. -/
def ReadFile (path : String) (outcome : TaglibOutcome) : AudioMeta × Option String :=
  let meta0 := defaultMeta path
  match outcome with
  | .panicked msg => (meta0, some ("taglib panicked: " ++ msg))
  | .openFailed => (meta0, none)
  | .opened tags lengthMs =>
    let m1 := if firstTag tags "title" = "" then meta0 else
      { meta0 with Title := firstTag tags "title" }
    let m2 := if firstTag tags "artist" = "" then m1 else
      { m1 with Artist := firstTag tags "artist" }
    let m3 := if firstTag tags "album" = "" then m2 else
      { m2 with Album := firstTag tags "album" }
    let m4 := if firstTag tags "albumartist" = "" then m3 else
      { m3 with AlbumArtist := firstTag tags "albumartist" }
    let m5 := if firstTag tags "genre" = "" then m4 else
      { m4 with Genre := firstTag tags "genre" }
    let m6 := if firstTag tags "date" = "" then m5 else
      { m5 with Year := parseYear (firstTag tags "date") }
    let m7 := if firstTag tags "tracknumber" = "" then m6 else
      { m6 with TrackNumber := parseSlashNumber (firstTag tags "tracknumber") (-1) }
    let m8 := if firstTag tags "discnumber" = "" then m7 else
      { m7 with DiskNumber := parseSlashNumber (firstTag tags "discnumber") 1 }
    let m9 := match lengthMs with
      | some ms => { m8 with Duration := (ms : Int) * 1000000 }
      | none => m8
    (m9, none)

/-- The warning loop of `cmd/main.go` over the per-item error slice: the
indices whose tag-reading error is non-nil are logged as warnings (and only
those); the run then proceeds for every item. -/
def tagWarnings (errs : List (Option String)) : List Nat :=
  (List.range errs.length).filter (fun i => (errs.getD i none).isSome)

/-! ## Tag cache (pkg/cache/cache.go)

The filesystem visible to `os.Stat` is modelled as a partial map from path
to the (size, UnixNano modification time) pair; `none` models any stat
error (file deleted, permission, ...).  `Save`'s effect on durable storage
is modelled as the list of filesystem operations it performs. -/

/-- A stat result: `info.Size()` and `info.ModTime().UnixNano()`. -/
structure FileStat where
  size : Int
  modTimeNanos : Int
deriving DecidableEq

/-- The filesystem as seen by `os.Stat`. -/
def FS : Type := String → Option FileStat

/-- Go `cache.fileKey`: the stored validity key. -/
structure FileKey where
  size : Int
  modTime : Int
deriving DecidableEq

/-- Go `cache.entry`: validity key plus cached metadata. -/
structure CacheEntry where
  key : FileKey
  meta : AudioMeta
deriving DecidableEq

/-- Go `cache.TagCache`: cached metadata keyed by absolute file path,
validated by size+mtime, with the dirty flag and the persistence path. -/
structure TagCache where
  path : String
  entries : String → Option CacheEntry
  dirty : Bool

/-- The Go zero value of `tags.AudioMeta`, returned on every miss. -/
def zeroMeta : AudioMeta := ⟨"", "", "", "", "", 0, 0, 0, 0⟩

/-- Go `cache.Load`: reads the cache file at `path`; `persisted` is the parse
result of that file (`none` models a read error or corrupt JSON, which
degrade to an empty cache).  The cache always starts clean. -/
def cacheLoad (path : String) (persisted : Option (String → Option CacheEntry)) :
    TagCache :=
  ⟨path, persisted.getD (fun _ => none), false⟩

/-- Go `TagCache.Lookup`: cached metadata if an entry exists, the file stats,
and its size and mtime both equal the stored key; every other case is a
miss `(zero, false)`, never an error. -/
def TagCache.Lookup (tc : TagCache) (fs : FS) (filePath : String) :
    AudioMeta × Bool :=
  match tc.entries filePath with
  | none => (zeroMeta, false)
  | some e =>
    match fs filePath with
    | none => (zeroMeta, false)
    | some info =>
      if info.size ≠ e.key.size ∨ info.modTimeNanos ≠ e.key.modTime then
        (zeroMeta, false)
      else (e.meta, true)

/-- Go `TagCache.Store`: stats the file; on stat error returns with the cache
untouched, otherwise records the entry under the current (size, mtime) key
and marks the cache dirty. -/
def TagCache.Store (tc : TagCache) (fs : FS) (filePath : String)
    (meta : AudioMeta) : TagCache :=
  match fs filePath with
  | none => tc
  | some info =>
    { tc with
      entries := fun p =>
        if p = filePath then some ⟨⟨info.size, info.modTimeNanos⟩, meta⟩
        else tc.entries p,
      dirty := true }

/-- Modelled from Go `filepath.Dir` on the slash paths used here: the path
up to the last slash ("." when there is none, "/" at the root). -/
def dirPath (p : String) : String :=
  match p.data.reverse.dropWhile (fun c => decide (c ≠ '/')) with
  | [] => "."
  | l => if l = ['/'] then "/" else String.mk (l.drop 1).reverse

/-- A durable-storage operation performed by `TagCache.Save`. -/
inductive FsOp where
  | mkdirAll (dir : String)
  | writeFile (path : String)
deriving DecidableEq

/-- Go `TagCache.Save`: the filesystem operations of one `Save` call — none at
all when the cache is clean, otherwise `MkdirAll` on the cache directory
followed by `WriteFile` of the serialized map. -/
def TagCache.Save (tc : TagCache) : List FsOp :=
  if tc.dirty = false then []
  else [FsOp.mkdirAll (dirPath tc.path), FsOp.writeFile tc.path]

/-! ## Dropbox API client retry loop (pkg/dropbox/client.go)

`apiCall`'s HTTP transport is modelled as the list of responses the server
returns to the successive attempts; the loop consumes one response per
attempt.  The returned list of durations (nanoseconds, Go `time.Duration`)
records the sleeps performed, in order. -/

/-- Go `time.Second` in nanoseconds. -/
def nsPerSec : Nat := 1000000000

/-- Go `initialBackoff = 1 * time.Second`. -/
def initialBackoff : Nat := 1 * nsPerSec

/-- Go `maxBackoff = 60 * time.Second`. -/
def maxBackoff : Nat := 60 * nsPerSec

/-- One HTTP response: 200 with a payload, 401, 429 (with the parsed
integer `Retry-After` header seconds if present and numeric — a missing or
non-numeric header is `none`, exactly the cases where Go keeps `wait =
backoff`), or any other status with its body. -/
inductive HttpResp where
  | ok (body : String)
  | unauthorized
  | tooManyRequests (retryAfter : Option Nat)
  | other (status : Nat) (body : String)

/-- The errors `apiCall` can return: the fixed 401 authentication error, or
the fatal message carrying any other non-200 status and body. -/
inductive CallError where
  | auth
  | api (status : Nat) (body : String)
deriving DecidableEq

/-- The sleep duration chosen for one 429: the server-provided
`Retry-After` seconds if present, else the current backoff. -/
def waitFor (retryAfter : Option Nat) (backoff : Nat) : Nat :=
  match retryAfter with
  | some secs => secs * nsPerSec
  | none => backoff

/-- Go `Client.apiCall`: the retry loop, as a function of the response
sequence.  Returns the call outcome (`none` if the response script is
exhausted, i.e. the loop is still running) and the sleeps performed.
On 429 it sleeps `waitFor`, doubles the backoff capped at `maxBackoff`
(`math.Min` on these integral magnitudes is exact), and retries; 200, 401
and any other status return immediately. -/
def apiCall (backoff : Nat) : List HttpResp → Option (Except CallError String) × List Nat
  | [] => (none, [])
  | r :: rest =>
    match r with
    | .ok b => (some (.ok b), [])
    | .unauthorized => (some (.error .auth), [])
    | .other s b => (some (.error (.api s b)), [])
    | .tooManyRequests ra =>
      let wait := waitFor ra backoff
      let next := min (backoff * 2) maxBackoff
      let res := apiCall next rest
      (res.1, wait :: res.2)

/-! ## Concrete fixtures for the end-to-end examples -/

/-- The name "café.mp3" with the accent in decomposed (NFD) form, built from code
points so no editor normalization can change it. -/
def cafeNFDname : String := "cafe" ++ String.mk [combiningAcute] ++ ".mp3"

/-- The name "café.mp3" with the accent in precomposed (NFC) form. -/
def cafeNFCname : String := "caf" ++ String.mk [eAcute] ++ ".mp3"

/-- The remote entry for "Song.MP3" of the end-to-end example. -/
def songEntry : Entry := ⟨"file", "id1", "Song.MP3", "/music/song.mp3", "/Music/Song.MP3"⟩

/-- The remote café entry with its lowercased path in decomposed form, as
in the specification's end-to-end example. -/
def cafeEntryNFD : Entry :=
  ⟨"file", "id2", cafeNFDname, "/music/" ++ cafeNFDname, "/Music/" ++ cafeNFDname⟩

/-- The remote café entry with its lowercased path in composed (NFC) form,
the form the matcher actually handles. -/
def cafeEntryNFC : Entry :=
  ⟨"file", "id2", cafeNFCname, "/music/" ++ cafeNFCname, "/Music/" ++ cafeNFCname⟩

/-- A single remote audio entry used by the partition counterexample. -/
def dupKeyEntry : Entry := ⟨"file", "id3", "a.mp3", "/a.mp3", "/a.mp3"⟩

/-- A second remote audio entry used by the partition witness. -/
def flacEntry : Entry := ⟨"file", "id4", "b.flac", "/music/b.flac", "/Music/b.flac"⟩

/-! # Theorems -/

/-- C1.  COUNTEREXAMPLE.  The claim states that local/remote pairs
differing only in composed-vs-decomposed accent representation match, and
in particular that with local files ["/music/Song.MP3", "/music/café.mp3"]
and remote lowercased paths ["/music/song.mp3", decomposed
"/music/cafe&#x301;.mp3"] under remote root "/Music", both pairs match and
both unmatched sets are empty.  In the code, only the LOCAL relative path
is NFC-normalized; the remote `PathLower` is used verbatim as index key, so
the NFC-normalized local key never equals a decomposed remote path: the
café pair is NOT matched — the local file lands in `UnmatchedLocal` and the
remote entry in `UnmatchedDropbox`. -/
theorem match_unicode_counterexample :
    Match "/music" "/Music" ["/music/Song.MP3", "/music/" ++ cafeNFCname]
        [songEntry, cafeEntryNFD]
      = ⟨[⟨"/music/Song.MP3", songEntry⟩], ["/music/" ++ cafeNFCname],
         [cafeEntryNFD]⟩ := rfl

/-- C1.  AMENDED.  Pairs differing only in letter case match, and pairs
differing in accent representation match exactly when the remote lowercased
path is in composed (NFC) form: the matcher NFC-normalizes the local
relative path only.  With the remote café entry in composed form — the form
the Dropbox API returns — both pairs of the end-to-end example match even
when the local café file is in decomposed (macOS NFD) form, and both
unmatched sets are empty. -/
theorem match_unicode_amended :
    Match "/music" "/Music" ["/music/Song.MP3", "/music/" ++ cafeNFDname]
        [songEntry, cafeEntryNFC]
      = ⟨[⟨"/music/Song.MP3", songEntry⟩, ⟨"/music/" ++ cafeNFDname, cafeEntryNFC⟩],
         [], []⟩ := rfl

/-- C2.  COUNTEREXAMPLE.  The claim states that for EVERY input the result
is a partition, with `matched.length + unmatchedRemote.length` equal to the
number of remote audio entries.  But when two distinct local files compute
the same lookup key ("/m/A.mp3" and "/m/a.mp3" both lowercase to
"/a.mp3"), both are matched against the single remote entry: matched has
length 2 while there is only 1 remote audio entry and `UnmatchedDropbox` is
empty, so the remote-side count equation fails (2 + 0 ≠ 1). -/
theorem match_partition_counterexample :
    (Match "/m" "" ["/m/A.mp3", "/m/a.mp3"] [dupKeyEntry]).Matched.length = 2
    ∧ (Match "/m" "" ["/m/A.mp3", "/m/a.mp3"] [dupKeyEntry]).UnmatchedDropbox.length = 0
    ∧ ([dupKeyEntry].filter (fun e => IsAudioFile e.Name)).length = 1 :=
  ⟨rfl, rfl, rfl⟩

/-- C4.  For every path, `Lookup` reports `found = true` exactly when an
entry exists for the path, the file can currently be stat'd, and the
current size and modification-time-in-nanoseconds both equal the stored
validity key.  Every stat failure is a miss (`found = false`); the function
is total and returns no error in any case. -/
theorem cache_lookup_found_iff (tc : TagCache) (fs : FS) (p : String) :
    (tc.Lookup fs p).2 = true ↔
      ∃ e info, tc.entries p = some e ∧ fs p = some info ∧
        info.size = e.key.size ∧ info.modTimeNanos = e.key.modTime := by
  unfold TagCache.Lookup
  cases he : tc.entries p with
  | none => simp [he]
  | some e =>
    cases hf : fs p with
    | none => simp [he, hf]
    | some info =>
      by_cases hk : info.size ≠ e.key.size ∨ info.modTimeNanos ≠ e.key.modTime
      · simp only [if_pos hk]
        simp [he, hf]
        intro h1 h2
        rcases hk with hk | hk
        · exact absurd h1 hk
        · exact absurd h2 hk
      · simp only [if_neg hk]
        push_neg at hk
        simp [he, hf, hk.1, hk.2]

/-- C6.  Round-trip: storing metadata for a statable file and looking it up
with the filesystem unchanged returns exactly the stored metadata with
`found = true`; if the file's size or modification time has changed by
lookup time (or the file can no longer be stat'd), the lookup is a miss. -/
theorem cache_store_lookup_roundtrip (tc : TagCache) (fs fs2 : FS) (p : String)
    (m : AudioMeta) (info : FileStat) (hstat : fs p = some info) :
    (tc.Store fs p m).Lookup fs p = (m, true)
    ∧ (∀ info2, fs2 p = some info2 →
        info2.size ≠ info.size ∨ info2.modTimeNanos ≠ info.modTimeNanos →
        ((tc.Store fs p m).Lookup fs2 p).2 = false)
    ∧ (fs2 p = none → ((tc.Store fs p m).Lookup fs2 p).2 = false) := by
  unfold TagCache.Store TagCache.Lookup
  rw [hstat]
  refine ⟨?_, ?_, ?_⟩
  · simp [hstat]
  · intro info2 hstat2 hne
    rcases hne with hne | hne <;> simp [hstat2, hne]
  · intro hstat2
    simp [hstat2]

/-- C6 witness: a concrete store-then-lookup round trip, with a stale
lookup after the file's size changed. -/
theorem cache_store_lookup_roundtrip_witness :
    ((cacheLoad "/c/cache.json" none).Store
        (fun q => if q = "/a.mp3" then some ⟨100, 5⟩ else none) "/a.mp3"
        (defaultMeta "/a.mp3")).Lookup
        (fun q => if q = "/a.mp3" then some ⟨100, 5⟩ else none) "/a.mp3"
      = (defaultMeta "/a.mp3", true)
    ∧ (∀ info2, (fun q => if q = "/a.mp3" then some (⟨101, 5⟩ : FileStat) else none) "/a.mp3" = some info2 →
        info2.size ≠ (100 : Int) ∨ info2.modTimeNanos ≠ (5 : Int) →
        (((cacheLoad "/c/cache.json" none).Store
          (fun q => if q = "/a.mp3" then some ⟨100, 5⟩ else none) "/a.mp3"
          (defaultMeta "/a.mp3")).Lookup
          (fun q => if q = "/a.mp3" then some ⟨101, 5⟩ else none) "/a.mp3").2 = false)
    ∧ ((fun q => if q = "/a.mp3" then some (⟨101, 5⟩ : FileStat) else none) "/a.mp3" = none →
        (((cacheLoad "/c/cache.json" none).Store
          (fun q => if q = "/a.mp3" then some ⟨100, 5⟩ else none) "/a.mp3"
          (defaultMeta "/a.mp3")).Lookup
          (fun q => if q = "/a.mp3" then some ⟨101, 5⟩ else none) "/a.mp3").2 = false) :=
  cache_store_lookup_roundtrip (cacheLoad "/c/cache.json" none)
    (fun q => if q = "/a.mp3" then some ⟨100, 5⟩ else none)
    (fun q => if q = "/a.mp3" then some ⟨101, 5⟩ else none)
    "/a.mp3" (defaultMeta "/a.mp3") ⟨100, 5⟩ rfl

/-- Dirty flag after a sequence of `Store` calls: set exactly when at least
one call found its file statable (an "effective" store). -/
theorem store_foldl_dirty (stores : List (FS × String × AudioMeta)) (tc : TagCache) :
    (stores.foldl (fun c s => c.Store s.1 s.2.1 s.2.2) tc).dirty
      = (tc.dirty || stores.any (fun s => (s.1 s.2.1).isSome)) := by
  induction stores generalizing tc with
  | nil => simp
  | cons s rest ih =>
    rw [List.foldl_cons, ih, List.any_cons]
    unfold TagCache.Store
    cases h : s.1 s.2.1 <;> simp [h, Bool.or_assoc]

/-- C7.  `Save` touches the filesystem (performs any durable-storage
operation at all) exactly when some `Store` since `Load` was effective
(its file was statable); a cache loaded and then subjected to no effective
store performs no filesystem operation in `Save`. -/
theorem cache_save_only_when_dirty (path : String)
    (persisted : Option (String → Option CacheEntry))
    (stores : List (FS × String × AudioMeta)) :
    ((stores.foldl (fun c s => c.Store s.1 s.2.1 s.2.2) (cacheLoad path persisted)).Save ≠ []
      ↔ stores.any (fun s => (s.1 s.2.1).isSome) = true) := by
  unfold TagCache.Save
  rw [store_foldl_dirty]
  show (if (false || stores.any fun s => (s.1 s.2.1).isSome) = false then
      ([] : List FsOp) else _) ≠ [] ↔ _
  cases h : stores.any (fun s => (s.1 s.2.1).isSome) <;> simp [h]

/-- C10.  When the file cannot be stat'd, `Store` is a silent no-op: the
cache value (entries, dirty flag, everything) is returned unchanged, and a
subsequent `Save` of an otherwise-clean cache performs no filesystem
operation. -/
theorem cache_store_stat_failure_noop (tc : TagCache) (fs : FS) (p : String)
    (m : AudioMeta) (h : fs p = none) :
    tc.Store fs p m = tc
    ∧ (tc.dirty = false → (tc.Store fs p m).Save = []) := by
  have hnoop : tc.Store fs p m = tc := by
    unfold TagCache.Store
    rw [h]
  refine ⟨hnoop, fun hd => ?_⟩
  rw [hnoop]
  unfold TagCache.Save
  rw [hd]
  rfl

/-- C10 witness: a concrete no-op store on an empty filesystem. -/
theorem cache_store_stat_failure_noop_witness :
    (cacheLoad "/c/cache.json" none).Store (fun _ => none) "/a.mp3" zeroMeta
      = cacheLoad "/c/cache.json" none
    ∧ ((cacheLoad "/c/cache.json" none).dirty = false →
        ((cacheLoad "/c/cache.json" none).Store (fun _ => none) "/a.mp3" zeroMeta).Save = []) :=
  cache_store_stat_failure_noop (cacheLoad "/c/cache.json" none)
    (fun _ => none) "/a.mp3" zeroMeta rfl

/-- C8.  COUNTEREXAMPLE.  The claim states that EVERY metadata-extraction
failure is recorded against its item and logged as a warning.  But when
`audiotags.Open` fails (unreadable or corrupt file), `ReadFile` returns the
default metadata with a NIL error: nothing is recorded against the item and
the warning loop of `main` logs nothing — the failure is silent, exactly as
if extraction had succeeded.  Only a panic inside the boundary is recorded. -/
theorem readFile_open_failure_counterexample :
    (ReadFile "/music/broken.mp3" TaglibOutcome.openFailed).2 = none
    ∧ tagWarnings [(ReadFile "/music/broken.mp3" TaglibOutcome.openFailed).2] = []
    ∧ (ReadFile "/music/broken.mp3" TaglibOutcome.openFailed).1
        = defaultMeta "/music/broken.mp3" :=
  ⟨rfl, rfl, rfl⟩

/-- C8.  AMENDED.  An abnormal termination (panic) inside the extraction
boundary is converted to a per-item error — recorded against that item
only, logged as a warning by the main loop — and the run proceeds with the
best-effort default metadata record (filename as title, "Unknown"
artist/album/albumArtist, track number absent, disk number 1, zero
duration).  A plain open failure also yields the defaults and lets the run
proceed, but with a nil error: it is not recorded or logged. -/
theorem readFile_failure_defaults_amended (path msg q : String)
    (tagList : List (String × List String)) (lengthMs : Option Nat) :
    ReadFile path (.panicked msg)
      = (defaultMeta path, some ("taglib panicked: " ++ msg))
    ∧ ReadFile path .openFailed = (defaultMeta path, none)
    ∧ tagWarnings [(ReadFile path (.panicked msg)).2,
        (ReadFile q (.opened tagList lengthMs)).2] = [0] :=
  ⟨rfl, rfl, rfl⟩

/-- C5.  The retry loop of `apiCall`: (1) an HTTP 401 ends the call
immediately with the authentication error — no sleep is performed and the
remaining responses are never consumed, so it is never retried;
(2) three consecutive 429 responses followed by a 200 yield the successful
payload after exactly three sleeps, each the server-provided Retry-After
duration if present and otherwise the exponential backoff 1 s, 2 s, 4 s;
(3) in general, k consecutive 429 responses without Retry-After followed by
a 200 yield the payload with the i-th sleep equal to min(2^i seconds, 60
seconds) — the exponential backoff starting at 1 second and capped at 60
seconds. -/
theorem apiCall_backoff_behavior :
    (∀ (backoff : Nat) (rest : List HttpResp),
      apiCall backoff (.unauthorized :: rest) = (some (.error .auth), []))
    ∧ (∀ (ra1 ra2 ra3 : Option Nat) (b : String) (rest : List HttpResp),
      apiCall initialBackoff
          (.tooManyRequests ra1 :: .tooManyRequests ra2 :: .tooManyRequests ra3 ::
            .ok b :: rest)
        = (some (.ok b),
           [waitFor ra1 (1 * nsPerSec), waitFor ra2 (2 * nsPerSec),
            waitFor ra3 (4 * nsPerSec)]))
    ∧ (∀ (k : Nat) (b : String) (rest : List HttpResp),
      apiCall initialBackoff
          (List.replicate k (.tooManyRequests none) ++ .ok b :: rest)
        = (some (.ok b),
           (List.range k).map (fun i => min (2 ^ i * nsPerSec) maxBackoff))) := by
  refine ⟨fun backoff rest => rfl, fun ra1 ra2 ra3 b rest => rfl, fun k b rest => ?_⟩
  have aux : ∀ (k j : Nat),
      apiCall (min (2 ^ j * nsPerSec) maxBackoff)
          (List.replicate k (.tooManyRequests none) ++ .ok b :: rest)
        = (some (.ok b),
           (List.range k).map (fun i => min (2 ^ (j + i) * nsPerSec) maxBackoff)) := by
    intro k
    induction k with
    | zero => intro j; simp [apiCall]
    | succ k ih =>
      intro j
      rw [List.replicate_succ, List.cons_append]
      show (let wait := waitFor none (min (2 ^ j * nsPerSec) maxBackoff)
            let next := min (min (2 ^ j * nsPerSec) maxBackoff * 2) maxBackoff
            let res := apiCall next (List.replicate k (.tooManyRequests none) ++ .ok b :: rest)
            (res.1, wait :: res.2)) = _
      have hnext : min (min (2 ^ j * nsPerSec) maxBackoff * 2) maxBackoff
          = min (2 ^ (j + 1) * nsPerSec) maxBackoff := by
        have hp : 2 ^ (j + 1) * nsPerSec = 2 ^ j * nsPerSec * 2 := by ring
        rw [hp]
        generalize 2 ^ j * nsPerSec = x
        show min (min x maxBackoff * 2) maxBackoff = min (x * 2) maxBackoff
        unfold maxBackoff nsPerSec
        omega
      simp only [hnext, ih (j + 1)]
      rw [List.range_succ_eq_map]
      simp only [waitFor, List.map_cons, List.map_map]
      have hfun : ((fun i => min (2 ^ (j + i) * nsPerSec) maxBackoff) ∘ Nat.succ)
          = fun i => min (2 ^ (j + 1 + i) * nsPerSec) maxBackoff := by
        funext i
        show min (2 ^ (j + (i + 1)) * nsPerSec) maxBackoff
          = min (2 ^ (j + 1 + i) * nsPerSec) maxBackoff
        rw [show j + (i + 1) = j + 1 + i by omega]
      rw [hfun, Nat.add_zero]
      rfl
  have h0 : initialBackoff = min (2 ^ 0 * nsPerSec) maxBackoff := by
    unfold initialBackoff maxBackoff nsPerSec
    norm_num
  rw [h0]
  have := aux k 0
  simpa using this

/-- The invariant holds initially. -/
theorem poolInv_init (items : List T) (fn : T → R × Option E) (d : R) :
    PoolInv items fn d (initState items.length d) := by
  refine ⟨Nat.zero_le _, List.length_replicate .., List.length_replicate ..,
    List.length_replicate .., ?_, List.nodup_nil, ?_, ?_⟩
  · intro i hi
    simp [initState] at hi
  · intro i hlt
    simp [initState] at hlt
  · intro i hil _
    refine ⟨?_, ?_, ?_⟩ <;>
      simp [initState, List.getElem?_replicate, hil]

/-- Each scheduler step preserves the invariant. -/
theorem poolInv_step {items : List T} {n : Nat} {fn : T → R × Option E} {d : R}
    {s s2 : PoolState R E} (inv : PoolInv items fn d s)
    (st : PoolStep items n fn s s2) : PoolInv items fn d s2 := by
  cases st with
  | issue hc hi hsem =>
    refine ⟨?_, ?_, ?_, ?_, ?_, ?_, ?_, ?_⟩ <;> dsimp only
    · exact hi
    · exact inv.hrlen
    · exact inv.helen
    · exact inv.halen
    · intro i hi2
      rcases List.mem_cons.mp hi2 with h | h
      · omega
      · exact Nat.lt_succ_of_lt (inv.hflight i h)
    · rw [List.nodup_cons]
      exact ⟨fun hmem => absurd (inv.hflight _ hmem) (by omega), inv.hnodup⟩
    · intro i hlt hnotin
      have hne : i ≠ s.nextIdx := fun h => hnotin (h ▸ List.mem_cons_self _ _)
      exact inv.hdone i (by omega) (fun hm => hnotin (List.mem_cons_of_mem _ hm))
    · intro i hil hcond
      apply inv.hpending i hil
      rcases hcond with h | h
      · left; omega
      · rcases List.mem_cons.mp h with h | h
        · left; omega
        · right; exact h
  | complete i h hin =>
    have hilen : i < s.attempts.length := by rw [inv.halen]; exact h
    have hirlen : i < s.results.length := by rw [inv.hrlen]; exact h
    have hielen : i < s.errors.length := by rw [inv.helen]; exact h
    have hpend := inv.hpending i h (Or.inr hin)
    refine ⟨?_, ?_, ?_, ?_, ?_, ?_, ?_, ?_⟩ <;> dsimp only
    · exact inv.hnext
    · rw [List.length_set]; exact inv.hrlen
    · rw [List.length_set]; exact inv.helen
    · rw [List.length_set]; exact inv.halen
    · intro j hj
      exact inv.hflight j (List.mem_of_mem_erase hj)
    · exact inv.hnodup.erase i
    · intro j hj hnot
      by_cases hji : j = i
      · subst hji
        refine ⟨h, ?_, ?_, ?_⟩
        · rw [List.getElem?_set_self hilen]
          have : s.attempts.getD j 0 = 0 := by
            rw [List.getD_eq_getElem?_getD, hpend.1]
            rfl
          rw [this]
        · rw [List.getElem?_set_self hirlen]
        · rw [List.getElem?_set_self hielen]
      · have hjm : j ∉ s.inFlight := by
          intro hmem
          exact hnot ((inv.hnodup.mem_erase_iff).mpr ⟨hji, hmem⟩)
        obtain ⟨h', ha, hr, he⟩ := inv.hdone j hj hjm
        refine ⟨h', ?_, ?_, ?_⟩ <;>
          rw [List.getElem?_set_ne (fun hh => hji hh.symm)]
        · exact ha
        · exact hr
        · exact he
    · intro j hjl hcond
      have hji : j ≠ i := by
        rcases hcond with hc | hc
        · have := inv.hflight i hin
          omega
        · exact ((inv.hnodup.mem_erase_iff).mp hc).1
      have hold : s.nextIdx ≤ j ∨ j ∈ s.inFlight := by
        rcases hcond with hc | hc
        · exact Or.inl hc
        · exact Or.inr ((inv.hnodup.mem_erase_iff).mp hc).2
      obtain ⟨ha, hr, he⟩ := inv.hpending j hjl hold
      refine ⟨?_, ?_, ?_⟩ <;>
        rw [List.getElem?_set_ne (fun hh => hji hh.symm)]
      · exact ha
      · exact hr
      · exact he
  | cancel =>
    exact ⟨inv.hnext, inv.hrlen, inv.helen, inv.halen, inv.hflight,
      inv.hnodup, inv.hdone, inv.hpending⟩

/-- The invariant holds in every reachable state. -/
theorem poolInv_reaches {items : List T} {n : Nat} {fn : T → R × Option E}
    {d : R} {s : PoolState R E}
    (hreach : PoolReaches items n fn (initState items.length d) s) :
    PoolInv items fn d s := by
  induction hreach with
  | refl => exact poolInv_init items fn d
  | tail _ hstep ih => exact poolInv_step ih hstep

/-- C3.  For every item list, every concurrency limit n ≥ 1 and every item
function, in every completed run without cancellation — whatever order the
scheduler completed items in — the result and error slices have the length
of the item list and slot i holds exactly `fn items[i]`'s result and error,
each item having been attempted exactly once; one item's error never
prevents any other slot from being filled. -/
theorem worker_process_correct (items : List T) (n : Nat)
    (fn : T → R × Option E) (d : R) (s : PoolState R E) (hn : 1 ≤ n)
    (hreach : PoolReaches items n fn (initState items.length d) s)
    (hfin : PoolFinal items s) (hnc : s.cancelled = false) :
    s.results.length = items.length ∧ s.errors.length = items.length ∧
    ∀ (i : Nat) (h : i < items.length),
      s.attempts[i]? = some 1 ∧ s.results[i]? = some (fn items[i]).1
        ∧ s.errors[i]? = some (fn items[i]).2 := by
  have inv := poolInv_reaches hreach
  obtain ⟨hfl, hnd⟩ := hfin
  have hnx : s.nextIdx = items.length := by
    rcases hnd with hh | hh
    · exact hh
    · rw [hnc] at hh; cases hh
  refine ⟨inv.hrlen, inv.helen, fun i h => ?_⟩
  obtain ⟨h', ha, hr, he⟩ := inv.hdone i (by omega) (by simp [hfl])
  exact ⟨ha, hr, he⟩

/-- C9.  In every completed run, cancelled or not, the result and error
slices still have the full length of the item list, and every slot that was
never attempted holds the zero value of the result type and a nil error —
so after cancellation a nil error in slot i does not imply that items[i]
was processed. -/
theorem worker_process_cancelled (items : List T) (n : Nat)
    (fn : T → R × Option E) (d : R) (s : PoolState R E)
    (hreach : PoolReaches items n fn (initState items.length d) s)
    (hfin : PoolFinal items s) :
    s.results.length = items.length ∧ s.errors.length = items.length ∧
    ∀ (i : Nat) (h : i < items.length), s.attempts[i]? = some 0 →
      s.results[i]? = some d ∧ s.errors[i]? = some none := by
  have inv := poolInv_reaches hreach
  refine ⟨inv.hrlen, inv.helen, fun i h hz => ?_⟩
  by_cases hlt : i < s.nextIdx
  · obtain ⟨h', ha, _, _⟩ := inv.hdone i hlt (by simp [hfin.1])
    rw [ha] at hz
    cases hz
  · obtain ⟨_, hr, he⟩ := inv.hpending i h (Or.inl (by omega))
    exact ⟨hr, he⟩

/-- C3 witness: a concrete run of two items with concurrency 2, completed
out of order (item 1 before item 0), ending with both slots holding their
item's outcome. -/
theorem worker_process_correct_witness :
    (⟨2, [], [11, 21], [none, none], [1, 1], 2, false⟩ : PoolState Nat Unit).results.length
        = ([10, 20] : List Nat).length
    ∧ (⟨2, [], [11, 21], [none, none], [1, 1], 2, false⟩ : PoolState Nat Unit).errors.length
        = ([10, 20] : List Nat).length
    ∧ ∀ (i : Nat) (h : i < ([10, 20] : List Nat).length),
        (⟨2, [], [11, 21], [none, none], [1, 1], 2, false⟩ : PoolState Nat Unit).attempts[i]?
            = some 1
        ∧ (⟨2, [], [11, 21], [none, none], [1, 1], 2, false⟩ : PoolState Nat Unit).results[i]?
            = some ((fun x => (x + 1, (none : Option Unit))) ([10, 20] : List Nat)[i]).1
        ∧ (⟨2, [], [11, 21], [none, none], [1, 1], 2, false⟩ : PoolState Nat Unit).errors[i]?
            = some ((fun x => (x + 1, (none : Option Unit))) ([10, 20] : List Nat)[i]).2 :=
  worker_process_correct [10, 20] 2 (fun x => (x + 1, (none : Option Unit))) 0
    ⟨2, [], [11, 21], [none, none], [1, 1], 2, false⟩ (by decide)
    (Relation.ReflTransGen.tail
      (Relation.ReflTransGen.tail
        (Relation.ReflTransGen.tail
          (Relation.ReflTransGen.tail Relation.ReflTransGen.refl
            (PoolStep.issue _ rfl (by decide) (by decide)))
          (PoolStep.issue _ rfl (by decide) (by decide)))
        (PoolStep.complete _ 1 (by decide) (by decide)))
      (PoolStep.complete _ 0 (by decide) (by decide)))
    ⟨rfl, Or.inl rfl⟩ rfl

/-- C9 witness: a concrete run of two items with concurrency 1, cancelled
after item 0 was issued; item 0 completes, item 1 is never issued and its
slots keep the zero value and a nil error. -/
theorem worker_process_cancelled_witness :
    (⟨1, [], [11, 0], [none, none], [1, 0], 1, true⟩ : PoolState Nat Unit).results.length
        = ([10, 20] : List Nat).length
    ∧ (⟨1, [], [11, 0], [none, none], [1, 0], 1, true⟩ : PoolState Nat Unit).errors.length
        = ([10, 20] : List Nat).length
    ∧ ∀ (i : Nat) (h : i < ([10, 20] : List Nat).length),
        (⟨1, [], [11, 0], [none, none], [1, 0], 1, true⟩ : PoolState Nat Unit).attempts[i]?
            = some 0 →
        (⟨1, [], [11, 0], [none, none], [1, 0], 1, true⟩ : PoolState Nat Unit).results[i]?
            = some 0
        ∧ (⟨1, [], [11, 0], [none, none], [1, 0], 1, true⟩ : PoolState Nat Unit).errors[i]?
            = some none :=
  worker_process_cancelled [10, 20] 1 (fun x => (x + 1, (none : Option Unit))) 0
    (⟨1, [], [11, 0], [none, none], [1, 0], 1, true⟩ : PoolState Nat Unit)
    (Relation.ReflTransGen.tail
      (Relation.ReflTransGen.tail
        (Relation.ReflTransGen.tail Relation.ReflTransGen.refl
          (show PoolStep [10, 20] 1 (fun x => (x + 1, (none : Option Unit)))
              (initState ([10, 20] : List Nat).length 0)
              ⟨1, [0], [0, 0], [none, none], [0, 0], 0, false⟩ from
            PoolStep.issue _ rfl (by decide) (by decide)))
        (show PoolStep [10, 20] 1 (fun x => (x + 1, (none : Option Unit)))
            ⟨1, [0], [0, 0], [none, none], [0, 0], 0, false⟩
            ⟨1, [0], [0, 0], [none, none], [0, 0], 0, true⟩ from
          PoolStep.cancel _))
      (show PoolStep [10, 20] 1 (fun x => (x + 1, (none : Option Unit)))
          ⟨1, [0], [0, 0], [none, none], [0, 0], 0, true⟩
          ⟨1, [], [11, 0], [none, none], [1, 0], 1, true⟩ from
        PoolStep.complete _ 0 (by decide) (by decide)))
    ⟨rfl, Or.inr rfl⟩

/-- With pairwise-distinct `PathLower` values, the `dbLookup` map is just
the entries paired with their keys, in order (no overwrite ever fires). -/
theorem buildLookup_nodup_eq (entries : List Entry)
    (hpaths : (entries.map Entry.PathLower).Nodup) :
    buildLookup entries = entries.map (fun e => (e.PathLower, e)) := by
  have gen : ∀ (es : List Entry) (acc : List (String × Entry)),
      (∀ e ∈ es, ∀ p ∈ acc, p.1 ≠ e.PathLower) →
      (es.map Entry.PathLower).Nodup →
      es.foldl (fun db e => insertEntry db e.PathLower e) acc
        = acc ++ es.map (fun e => (e.PathLower, e)) := by
    intro es
    induction es with
    | nil =>
      intro acc _ _
      simp
    | cons e rest ih =>
      intro acc hdisj hnd
      rw [List.foldl_cons]
      have hnotin : acc.any (fun p => decide (p.1 = e.PathLower)) = false := by
        rw [List.any_eq_false]
        intro p hp
        simp only [decide_eq_true_eq]
        exact hdisj e (List.mem_cons_self _ _) p hp
      have hins : insertEntry acc e.PathLower e = acc ++ [(e.PathLower, e)] := by
        unfold insertEntry
        rw [hnotin]
        simp
      rw [hins, ih (acc ++ [(e.PathLower, e)]) ?_ ?_]
      · simp
      · intro e' he' p hp
        rcases List.mem_append.mp hp with hp | hp
        · exact hdisj e' (List.mem_cons_of_mem _ he') p hp
        · have hpe : p = (e.PathLower, e) := by simpa using hp
          subst hpe
          intro hcontra
          have hc2 : e.PathLower = e'.PathLower := hcontra
          have : e.PathLower ∈ rest.map Entry.PathLower := by
            rw [hc2]
            exact List.mem_map_of_mem _ he'
          exact (List.nodup_cons.mp (by simpa using hnd)).1 this
      · exact (List.nodup_cons.mp (by simpa using hnd)).2
  have := gen entries [] (by intro e _ p hp; cases hp) hpaths
  simpa using this

/-- What a successful map lookup on the paired list means: the value is one
of the entries and its `PathLower` is the looked-up key. -/
theorem assocFind_pairing (entries : List Entry) (k : String) (e : Entry)
    (h : assocFind k (entries.map (fun e => (e.PathLower, e))) = some e) :
    e ∈ entries ∧ e.PathLower = k := by
  induction entries with
  | nil => cases h
  | cons e0 rest ih =>
    rw [List.map_cons] at h
    unfold assocFind at h
    by_cases hk : e0.PathLower = k
    · rw [if_pos hk] at h
      cases h
      exact ⟨List.mem_cons_self _ _, hk⟩
    · rw [if_neg hk] at h
      obtain ⟨hmem, hpl⟩ := ih h
      exact ⟨List.mem_cons_of_mem _ hmem, hpl⟩

/-- Splitting a filter over a pointwise-exclusive disjunction of predicates
into the two separate filters, up to permutation. -/
theorem filter_or_perm (l : List α) (p q : α → Bool)
    (hdisj : ∀ x ∈ l, ¬(p x = true ∧ q x = true)) :
    (l.filter (fun x => p x || q x)).Perm (l.filter p ++ l.filter q) := by
  induction l with
  | nil => simp
  | cons x rest ih =>
    have ih' := ih (fun y hy => hdisj y (List.mem_cons_of_mem _ hy))
    have hx := hdisj x (List.mem_cons_self _ _)
    cases hp : p x with
    | true =>
      have hq : q x = false := by
        cases hqv : q x with
        | true => exact absurd ⟨hp, hqv⟩ hx
        | false => rfl
      simp only [List.filter_cons, hp, hq, Bool.true_or, if_true]
      simpa using ih'.cons x
    | false =>
      cases hq : q x with
      | true =>
        simp only [List.filter_cons, hp, hq, Bool.false_or, if_true]
        refine (ih'.cons x).trans ?_
        exact List.perm_middle.symm
      | false =>
        simp only [List.filter_cons, hp, hq, Bool.false_or]
        simpa using ih'

/-- A key absent from an association list filters to nothing. -/
theorem filter_key_nil (db : List (String × Entry)) (k : String)
    (h : k ∉ db.map Prod.fst) :
    db.filter (fun p => decide (p.1 = k)) = [] := by
  induction db with
  | nil => rfl
  | cons p rest ih =>
    rw [List.map_cons] at h
    have h1 : p.1 ≠ k := fun hc => h (by rw [← hc]; exact List.mem_cons_self _ _)
    rw [List.filter_cons]
    simp only [decide_eq_true_eq, h1, if_false]
    exact ih (fun hc => h (List.mem_cons_of_mem _ hc))

/-- With pairwise-distinct keys, filtering an association list by one of
its keys yields exactly that binding. -/
theorem filter_key_singleton (db : List (String × Entry)) (k : String) (v : Entry)
    (hnd : (db.map Prod.fst).Nodup) (hmem : (k, v) ∈ db) :
    db.filter (fun p => decide (p.1 = k)) = [(k, v)] := by
  induction db with
  | nil => cases hmem
  | cons p rest ih =>
    rw [List.map_cons, List.nodup_cons] at hnd
    rcases List.mem_cons.mp hmem with hmem | hmem
    · subst hmem
      rw [List.filter_cons]
      simp [filter_key_nil rest k hnd.1]
    · have hk : k ∈ rest.map Prod.fst := List.mem_map_of_mem Prod.fst hmem
      have h1 : p.1 ≠ k := fun hc => hnd.1 (hc ▸ hk)
      rw [List.filter_cons]
      simp only [decide_eq_true_eq, h1, if_false]
      exact ih hnd.2 hmem

/-- Every local file lands in exactly one of matched and unmatched-local:
their interleaving is a permutation of the input, for any lookup map and
any starting key set. -/
theorem matchLocals_local_perm (db : List (String × Entry)) (localDir rp : String)
    (locals : List String) : ∀ mk,
    (((matchLocals db localDir rp mk locals).1.map MatchedFile.LocalPath)
      ++ (matchLocals db localDir rp mk locals).2.1).Perm locals := by
  induction locals with
  | nil => intro mk; simp [matchLocals]
  | cons l ls ih =>
    intro mk
    cases hk : localKey localDir rp l with
    | none =>
      simp only [matchLocals, hk]
      exact List.perm_middle.trans ((ih mk).cons l)
    | some key =>
      cases hf : assocFind key db with
      | some e =>
        simp only [matchLocals, hk, hf, List.map_cons, List.cons_append]
        exact (ih (key :: mk)).cons l
      | none =>
        simp only [matchLocals, hk, hf]
        exact List.perm_middle.trans ((ih mk).cons l)

/-- Over the paired lookup list, the final matched-key set is (up to
permutation) the starting one plus the `PathLower` of each matched entry. -/
theorem matchLocals_keys_perm (entries : List Entry) (localDir rp : String)
    (locals : List String) : ∀ mk,
    ((matchLocals (entries.map (fun e => (e.PathLower, e))) localDir rp mk locals).2.2).Perm
      (((matchLocals (entries.map (fun e => (e.PathLower, e))) localDir rp mk locals).1.map
        (fun mf => mf.entry.PathLower)) ++ mk) := by
  induction locals with
  | nil => intro mk; simp [matchLocals]
  | cons l ls ih =>
    intro mk
    cases hk : localKey localDir rp l with
    | none => simpa [matchLocals, hk] using ih mk
    | some key =>
      cases hf : assocFind key (entries.map (fun e => (e.PathLower, e))) with
      | some e =>
        have hpl := (assocFind_pairing entries key e hf).2
        simp only [matchLocals, hk, hf, List.map_cons, List.cons_append]
        refine (ih (key :: mk)).trans ?_
        rw [hpl]
        exact List.perm_middle
      | none => simpa [matchLocals, hk, hf] using ih mk

/-- Every matched pair's entry comes from the entry list. -/
theorem matchLocals_entry_mem (entries : List Entry) (localDir rp : String)
    (locals : List String) : ∀ mk mf,
    mf ∈ (matchLocals (entries.map (fun e => (e.PathLower, e))) localDir rp mk locals).1 →
    mf.entry ∈ entries := by
  induction locals with
  | nil =>
    intro mk mf h
    simp [matchLocals] at h
  | cons l ls ih =>
    intro mk mf h
    cases hk : localKey localDir rp l with
    | none =>
      simp only [matchLocals, hk] at h
      exact ih mk mf h
    | some key =>
      cases hf : assocFind key (entries.map (fun e => (e.PathLower, e))) with
      | some e =>
        simp only [matchLocals, hk, hf, List.mem_cons] at h
        rcases h with h | h
        · subst h
          exact (assocFind_pairing entries key e hf).1
        · exact ih (key :: mk) mf h
      | none =>
        simp only [matchLocals, hk, hf] at h
        exact ih mk mf h

/-- The matched entries' keys form a sublist (in order) of the keys the
local files compute, so distinct local keys give distinct matched keys. -/
theorem matchLocals_keys_sublist (entries : List Entry) (localDir rp : String)
    (locals : List String) : ∀ mk,
    ((matchLocals (entries.map (fun e => (e.PathLower, e))) localDir rp mk locals).1.map
      (fun mf => mf.entry.PathLower)).Sublist (locals.filterMap (localKey localDir rp)) := by
  induction locals with
  | nil => intro mk; simp [matchLocals]
  | cons l ls ih =>
    intro mk
    cases hk : localKey localDir rp l with
    | none =>
      rw [List.filterMap_cons_none hk]
      simp only [matchLocals, hk]
      exact ih mk
    | some key =>
      rw [List.filterMap_cons_some hk]
      cases hf : assocFind key (entries.map (fun e => (e.PathLower, e))) with
      | some e =>
        have hpl := (assocFind_pairing entries key e hf).2
        simp only [matchLocals, hk, hf, List.map_cons]
        rw [hpl]
        exact (ih (key :: mk)).cons₂ key
      | none =>
        simp only [matchLocals, hk, hf]
        exact (ih mk).cons key

/-- With distinct lookup keys, distinct matched keys all present in the
lookup list, filtering the lookup list to the matched keys yields exactly
the matched entries paired with their keys, up to permutation. -/
theorem filter_in_keys_perm (db : List (String × Entry)) (M : List Entry)
    (hnd : (db.map Prod.fst).Nodup)
    (hKnd : (M.map Entry.PathLower).Nodup)
    (hmem : ∀ m ∈ M, (m.PathLower, m) ∈ db) :
    (db.filter (fun p => decide (p.1 ∈ M.map Entry.PathLower))).Perm
      (M.map (fun e => (e.PathLower, e))) := by
  induction M with
  | nil => simp
  | cons m M' ih =>
    rw [List.map_cons, List.nodup_cons] at hKnd
    have hdisj : ∀ p ∈ db,
        ¬(decide (p.1 = m.PathLower) = true
          ∧ decide (p.1 ∈ M'.map Entry.PathLower) = true) := by
      intro p _ hand
      obtain ⟨h1, h2⟩ := hand
      simp only [decide_eq_true_eq] at h1 h2
      rw [h1] at h2
      exact hKnd.1 h2
    have hpred : ∀ p ∈ db,
        decide (p.1 ∈ m.PathLower :: M'.map Entry.PathLower)
          = (decide (p.1 = m.PathLower) || decide (p.1 ∈ M'.map Entry.PathLower)) := by
      intro p _
      simp [List.mem_cons]
    have hsplit := filter_or_perm db (fun p => decide (p.1 = m.PathLower))
      (fun p => decide (p.1 ∈ M'.map Entry.PathLower)) hdisj
    rw [List.map_cons]
    rw [List.filter_congr hpred]
    refine hsplit.trans ?_
    rw [filter_key_singleton db m.PathLower m hnd (hmem m (List.mem_cons_self _ _))]
    rw [List.map_cons, List.singleton_append]
    exact (ih hKnd.2 (fun x hx => hmem x (List.mem_cons_of_mem _ hx))).cons (m.PathLower, m)


/-- The partition property of the matcher's internals, for any lowercased
remote prefix: local side unconditionally, remote side under the
distinctness and audio hypotheses. -/
theorem match_partition_core (localDir rp : String) (localFiles : List String)
    (entries : List Entry)
    (hkeys : (localFiles.filterMap (localKey localDir rp)).Nodup)
    (hpaths : (entries.map Entry.PathLower).Nodup)
    (haudio : ∀ e ∈ entries, IsAudioFile e.Name = true) :
    (((matchLocals (entries.map (fun e => (e.PathLower, e))) localDir rp [] localFiles).1.map MatchedFile.LocalPath) ++ (matchLocals (entries.map (fun e => (e.PathLower, e))) localDir rp [] localFiles).2.1).Perm localFiles
    ∧ (((matchLocals (entries.map (fun e => (e.PathLower, e))) localDir rp [] localFiles).1.map MatchedFile.entry) ++ ((entries.map (fun e => (e.PathLower, e))).filter
        (fun p => !decide (p.1 ∈ (matchLocals (entries.map (fun e => (e.PathLower, e))) localDir rp [] localFiles).2.2) && IsAudioFile p.2.Name)).map
          (fun p => p.2)).Perm entries
    ∧ (matchLocals (entries.map (fun e => (e.PathLower, e))) localDir rp [] localFiles).1.length + (matchLocals (entries.map (fun e => (e.PathLower, e))) localDir rp [] localFiles).2.1.length = localFiles.length
    ∧ (matchLocals (entries.map (fun e => (e.PathLower, e))) localDir rp [] localFiles).1.length + (((entries.map (fun e => (e.PathLower, e))).filter
        (fun p => !decide (p.1 ∈ (matchLocals (entries.map (fun e => (e.PathLower, e))) localDir rp [] localFiles).2.2) && IsAudioFile p.2.Name)).map
          (fun p => p.2)).length = entries.length := by
  have hloc := matchLocals_local_perm (entries.map (fun e => (e.PathLower, e))) localDir rp localFiles []
  have hkey0 := matchLocals_keys_perm entries localDir rp localFiles []
  rw [List.append_nil] at hkey0
  have hsub := matchLocals_keys_sublist entries localDir rp localFiles []
  have hKnd := hsub.nodup hkeys
  have hMk : ((matchLocals (entries.map (fun e => (e.PathLower, e))) localDir rp [] localFiles).1.map MatchedFile.entry).map Entry.PathLower
      = (matchLocals (entries.map (fun e => (e.PathLower, e))) localDir rp [] localFiles).1.map (fun mf => mf.entry.PathLower) := by
    rw [List.map_map]
    rfl
  have hstep1 : (entries.map (fun e => (e.PathLower, e))).filter
        (fun p => !decide (p.1 ∈ (matchLocals (entries.map (fun e => (e.PathLower, e))) localDir rp [] localFiles).2.2) && IsAudioFile p.2.Name)
      = (entries.map (fun e => (e.PathLower, e))).filter
        (fun p => !decide (p.1 ∈ ((matchLocals (entries.map (fun e => (e.PathLower, e))) localDir rp [] localFiles).1.map MatchedFile.entry).map Entry.PathLower)) := by
    refine List.filter_congr ?_
    intro p hp
    obtain ⟨e, he, rfl⟩ := List.mem_map.mp hp
    rw [show IsAudioFile ((e.PathLower, e)).2.Name = true from haudio e he]
    rw [Bool.and_true, hMk]
    congr 1
    rw [decide_eq_decide]
    exact hkey0.mem_iff
  have hdbnd : ((entries.map (fun e => (e.PathLower, e))).map Prod.fst).Nodup := by
    rw [List.map_map]
    exact hpaths
  have hMnd : (((matchLocals (entries.map (fun e => (e.PathLower, e))) localDir rp [] localFiles).1.map MatchedFile.entry).map Entry.PathLower).Nodup := by
    rw [hMk]
    exact hKnd
  have hMmem : ∀ m ∈ ((matchLocals (entries.map (fun e => (e.PathLower, e))) localDir rp [] localFiles).1.map MatchedFile.entry), (m.PathLower, m) ∈ (entries.map (fun e => (e.PathLower, e))) := by
    intro m hm
    obtain ⟨mf, hmf, rfl⟩ := List.mem_map.mp hm
    exact List.mem_map_of_mem _
      (matchLocals_entry_mem entries localDir rp localFiles [] mf hmf)
  have hin := filter_in_keys_perm (entries.map (fun e => (e.PathLower, e))) ((matchLocals (entries.map (fun e => (e.PathLower, e))) localDir rp [] localFiles).1.map MatchedFile.entry) hdbnd hMnd hMmem
  have hcomp := List.filter_append_perm
    (fun p => decide (p.1 ∈ ((matchLocals (entries.map (fun e => (e.PathLower, e))) localDir rp [] localFiles).1.map MatchedFile.entry).map Entry.PathLower)) (entries.map (fun e => (e.PathLower, e)))
  have hsnd1 : (((matchLocals (entries.map (fun e => (e.PathLower, e))) localDir rp [] localFiles).1.map MatchedFile.entry).map (fun e => (e.PathLower, e))).map (fun p => p.2) = ((matchLocals (entries.map (fun e => (e.PathLower, e))) localDir rp [] localFiles).1.map MatchedFile.entry) := by
    rw [List.map_map]
    rw [show ((fun p : String × Entry => p.2) ∘ (fun e : Entry => (e.PathLower, e))) = id from rfl]
    rw [List.map_id]
  have hsnd2 : (entries.map (fun e => (e.PathLower, e))).map (fun p => p.2) = entries := by
    rw [List.map_map]
    rw [show ((fun p : String × Entry => p.2) ∘ (fun e : Entry => (e.PathLower, e))) = id from rfl]
    rw [List.map_id]
  have hMperm : ((matchLocals (entries.map (fun e => (e.PathLower, e))) localDir rp [] localFiles).1.map MatchedFile.entry).Perm
      (((entries.map (fun e => (e.PathLower, e))).filter (fun p => decide (p.1 ∈ ((matchLocals (entries.map (fun e => (e.PathLower, e))) localDir rp [] localFiles).1.map MatchedFile.entry).map Entry.PathLower))).map (fun p => p.2)) := by
    have hm2 := hin.map (fun p => p.2)
    rw [hsnd1] at hm2
    exact hm2.symm
  have hrem : (((matchLocals (entries.map (fun e => (e.PathLower, e))) localDir rp [] localFiles).1.map MatchedFile.entry) ++ ((entries.map (fun e => (e.PathLower, e))).filter
      (fun p => !decide (p.1 ∈ (matchLocals (entries.map (fun e => (e.PathLower, e))) localDir rp [] localFiles).2.2) && IsAudioFile p.2.Name)).map
        (fun p => p.2)).Perm entries := by
    rw [hstep1]
    refine (hMperm.append (List.Perm.refl _)).trans ?_
    rw [← List.map_append]
    have hc2 := hcomp.map (fun p => p.2)
    rw [hsnd2] at hc2
    exact hc2
  refine ⟨hloc, hrem, ?_, ?_⟩
  · have h3 := hloc.length_eq
    simp only [List.length_append, List.length_map] at h3
    exact h3
  · have h4 := hrem.length_eq
    simp only [List.length_append, List.length_map] at h4
    simp only [List.length_map]
    exact h4

/-- C2.  AMENDED.  Under the hypotheses the counterexample forces — the
local files' computed lookup keys are pairwise distinct, the remote
entries' lowercased paths are pairwise distinct, and every remote entry has
an audio extension — `Match` produces a partition: every local path appears
in exactly one of matched and unmatched-local (their interleaving is a
permutation of the local files), every remote entry appears in exactly one
of matched and unmatched-remote (a permutation of the entries), and
`matched.length + unmatchedLocal.length = localFiles.length` and
`matched.length + unmatchedRemote.length = entries.length` (the remote
entries all being audio, `entries.length` is the remote audio count). -/
theorem match_partition_amended (localDir remotePath : String)
    (localFiles : List String) (entries : List Entry)
    (hkeys : (localFiles.filterMap (localKey localDir (goToLower remotePath))).Nodup)
    (hpaths : (entries.map Entry.PathLower).Nodup)
    (haudio : ∀ e ∈ entries, IsAudioFile e.Name = true) :
    (((Match localDir remotePath localFiles entries).Matched.map MatchedFile.LocalPath)
        ++ (Match localDir remotePath localFiles entries).UnmatchedLocal).Perm localFiles
    ∧ (((Match localDir remotePath localFiles entries).Matched.map MatchedFile.entry)
        ++ (Match localDir remotePath localFiles entries).UnmatchedDropbox).Perm entries
    ∧ (Match localDir remotePath localFiles entries).Matched.length + (Match localDir remotePath localFiles entries).UnmatchedLocal.length = localFiles.length
    ∧ (Match localDir remotePath localFiles entries).Matched.length + (Match localDir remotePath localFiles entries).UnmatchedDropbox.length = entries.length := by
  have hdb := buildLookup_nodup_eq entries hpaths
  simp only [Match, hdb]
  exact match_partition_core localDir (goToLower remotePath) localFiles entries
    hkeys hpaths haudio

/-- C2 witness: a concrete run with two distinct local keys and two
distinct audio remote entries. -/
theorem match_partition_amended_witness :
    (((Match "/music" "/Music" ["/music/Song.MP3", "/music/b.flac"] [songEntry, flacEntry]).Matched.map MatchedFile.LocalPath)
        ++ (Match "/music" "/Music" ["/music/Song.MP3", "/music/b.flac"] [songEntry, flacEntry]).UnmatchedLocal).Perm ["/music/Song.MP3", "/music/b.flac"]
    ∧ (((Match "/music" "/Music" ["/music/Song.MP3", "/music/b.flac"] [songEntry, flacEntry]).Matched.map MatchedFile.entry)
        ++ (Match "/music" "/Music" ["/music/Song.MP3", "/music/b.flac"] [songEntry, flacEntry]).UnmatchedDropbox).Perm [songEntry, flacEntry]
    ∧ (Match "/music" "/Music" ["/music/Song.MP3", "/music/b.flac"] [songEntry, flacEntry]).Matched.length + (Match "/music" "/Music" ["/music/Song.MP3", "/music/b.flac"] [songEntry, flacEntry]).UnmatchedLocal.length
        = (["/music/Song.MP3", "/music/b.flac"] : List String).length
    ∧ (Match "/music" "/Music" ["/music/Song.MP3", "/music/b.flac"] [songEntry, flacEntry]).Matched.length + (Match "/music" "/Music" ["/music/Song.MP3", "/music/b.flac"] [songEntry, flacEntry]).UnmatchedDropbox.length
        = ([songEntry, flacEntry] : List Entry).length :=
  match_partition_amended "/music" "/Music" ["/music/Song.MP3", "/music/b.flac"]
    [songEntry, flacEntry] (by decide) (by decide) (by decide)

end Cbg
